import Mathlib

/-!
Verification of the column-reconciliation (auto-mapping) core of the
price-update application.  The definitions below are a shallow embedding of
the TypeScript source (`src/app/page.tsx`, current revision): the string
helpers, the similarity scorer `calculateSimilarity`, the field matcher
`findBestMatch`, the reconciliation engine `autoMapColumns` and the mapping
validator `validateColumnMappings`.  Strings are modelled by Lean `String`
(a list of characters); the source operates on ASCII data, so
`toLowerCase` is modelled as ASCII lower-casing.  JavaScript floating-point
scores are modelled by exact rationals.
-/

namespace PriceUpdate

/-- ASCII lower-casing of one character, modelling the effect of JavaScript
`String.prototype.toLowerCase` on ASCII input. -/
def lcChar (c : Char) : Char :=
  if 'A' ≤ c ∧ c ≤ 'Z' then Char.ofNat (c.toNat + 32) else c

/-- `s.toLowerCase()` on ASCII strings. -/
def toLowerS (s : String) : String := ⟨s.data.map lcChar⟩

/-- A character kept by the regex replacement `replace(/[^a-z0-9]/g, '')`. -/
def isLowerAlnum (c : Char) : Bool :=
  ('a' ≤ c && c ≤ 'z') || ('0' ≤ c && c ≤ '9')

/-- `s.replace(/[^a-z0-9]/g, '')`: delete every character that is not a
lower-case ASCII letter or digit. -/
def stripNonAlnum (s : String) : String := ⟨s.data.filter isLowerAlnum⟩

/-- Normalisation used throughout the source:
`s.toLowerCase().replace(/[^a-z0-9]/g, '')`. -/
def normS (s : String) : String := stripNonAlnum (toLowerS s)

/-- `prefixB n l` is true when `n` is a prefix of `l`. -/
def prefixB : List Char → List Char → Bool
  | [], _ => true
  | _ :: _, [] => false
  | a :: as, b :: bs => a = b && prefixB as bs

/-- `isSubB n hay` is true when `n` occurs as a contiguous substring of
`hay`. -/
def isSubB (n : List Char) : List Char → Bool
  | [] => prefixB n []
  | c :: hs => prefixB n (c :: hs) || isSubB n hs

/-- `hay.includes(needle)` of JavaScript: substring containment. -/
def includesS (hay needle : String) : Bool := isSubB needle.data hay.data

/-- A `\w` character (after lower-casing): letter, digit or underscore. -/
def isWordChar (c : Char) : Bool :=
  ('a' ≤ c && c ≤ 'z') || ('A' ≤ c && c ≤ 'Z') || ('0' ≤ c && c ≤ '9') || c = '_'

/-- A `\s` (whitespace) character, restricted to ASCII. -/
def isSpaceChar (c : Char) : Bool :=
  c = ' ' || c = '\t' || c = '\n' || c = '\r' || c = '\x0b' || c = '\x0c'

/-- Split a character list on runs of whitespace.  (JavaScript
`split(/\s+/)` additionally yields an empty token at a leading or trailing
separator; in the source the result is immediately filtered by
`word.length > 2`, which removes empty tokens, so dropping them here is
observationally identical.) -/
def splitWsGo (cur : List Char) : List Char → List (List Char)
  | [] => if cur.isEmpty then [] else [cur.reverse]
  | c :: cs =>
    if isSpaceChar c then
      if cur.isEmpty then splitWsGo [] cs else cur.reverse :: splitWsGo [] cs
    else splitWsGo (c :: cur) cs

/-- Split on whitespace runs. -/
def splitWs (l : List Char) : List (List Char) := splitWsGo [] l

/-- `label.split(sep)` for a single-character separator: the list of
segments between occurrences of `sep` (empty segments included, as in
JavaScript). -/
def splitChar (sep : Char) : List Char → List (List Char)
  | [] => [[]]
  | c :: cs =>
    if c = sep then [] :: splitChar sep cs
    else
      match splitChar sep cs with
      | [] => [[c]]
      | w :: ws => (c :: w) :: ws

/-- `getKeywords` of the source: lower-case the label, replace every
non-word non-space character by a space, split on whitespace and keep only
tokens longer than two characters. -/
def getKeywords (label : String) : List String :=
  let replaced : List Char :=
    (toLowerS label).data.map (fun c => if !(isWordChar c) && !(isSpaceChar c) then ' ' else c)
  ((splitWs replaced).map (fun w => (⟨w⟩ : String))).filter (fun w => 2 < w.data.length)

/-- Classic Levenshtein edit distance (insertion, deletion and substitution
each of cost 1) between two character lists.  This is the mathematical
function that the dynamic-programming table in `calculateSimilarity`
computes; the equivalence is proved below (`levTable_eq_lev`). -/
def lev : List Char → List Char → Nat
  | [], ys => ys.length
  | x :: xs, [] => (x :: xs).length
  | x :: xs, y :: ys =>
    min (lev xs (y :: ys) + 1)
      (min (lev (x :: xs) ys + 1) (lev xs ys + (if x = y then 0 else 1)))
  termination_by xs ys => xs.length + ys.length
  decreasing_by
    all_goals simp
    all_goals omega

/-- The inner loop of the Levenshtein table of `calculateSimilarity`: given
the character `c2` of the second string for the current row, the remaining
characters of the first string, the tail of the previous row, the diagonal
cell `matrix[j-1][i-1]` and the left cell `matrix[j][i-1]`, compute the
rest of the current row by
`matrix[j][i] = min(matrix[j][i-1] + 1, matrix[j-1][i] + 1, matrix[j-1][i-1] + indicator)`. -/
def rowRest (c2 : Char) : List Char → List Nat → Nat → Nat → List Nat
  | [], _, _, _ => []
  | _ :: _, [], _, _ => []
  | c1 :: s1, up :: ups, diag, left =>
    let v := min (left + 1) (min (up + 1) (diag + (if c1 = c2 then 0 else 1)))
    v :: rowRest c2 s1 ups up v

/-- One row of the Levenshtein table: the first cell is `matrix[j][0] = j`
(the previous row's first cell plus one), the rest comes from `rowRest`. -/
def nextRow (c2 : Char) (s1 : List Char) (prev : List Nat) : List Nat :=
  match prev with
  | [] => []
  | p0 :: ps => (p0 + 1) :: rowRest c2 s1 ps p0 (p0 + 1)

/-- The Levenshtein dynamic-programming table of `calculateSimilarity`:
row 0 is `[0, 1, …, s1.length]` (`matrix[0][i] = i`), each further row is
produced by `nextRow`, and the distance is the last cell of the last row
(`matrix[s2.length][s1.length]`). -/
def levTable (s1 s2 : List Char) : Nat :=
  (s2.foldl (fun row c2 => nextRow c2 s1 row) (List.range (s1.length + 1))).getLastD 0

/-- Maximum of two rationals, written so that it evaluates by kernel
reduction (the lattice `max` of the library is propositionally equal,
`qmax_eq_max`). -/
def qmax (a b : ℚ) : ℚ := if a ≤ b then b else a

/-- Sum of two rationals by numerator/denominator arithmetic; equals `a + b`
(`qadd_eq_add`), but evaluates by kernel reduction. -/
def qadd (a b : ℚ) : ℚ := mkRat (a.num * b.den + b.num * a.den) (a.den * b.den)

/-- Difference of two rationals by numerator/denominator arithmetic; equals
`a - b` (`qsub_eq_sub`), but evaluates by kernel reduction. -/
def qsub (a b : ℚ) : ℚ := mkRat (a.num * b.den - b.num * a.den) (a.den * b.den)

/-- `calculateSimilarity` of the source.  JavaScript numbers are modelled by
exact rationals: the score is 1 on equal normalised strings, 0.8 on substring
containment, and otherwise `1 - distance / maxLength` with the guard
returning 1 when both normalised strings are empty. -/
def calculateSimilarity (str1 str2 : String) : ℚ :=
  let s1 := stripNonAlnum (toLowerS str1)
  let s2 := stripNonAlnum (toLowerS str2)
  if s1 = s2 then 1
  else if includesS s1 s2 || includesS s2 s1 then mkRat 4 5
  else
    let distance := levTable s1.data s2.data
    let maxLength := max s1.data.length s2.data.length
    if maxLength = 0 then 1 else qsub 1 (mkRat distance maxLength)

/-- A business field of the catalog: `{key, label}`. -/
structure BField where
  key : String
  label : String
  deriving DecidableEq, Repr

/-- The fixed `BUSINESS_FIELDS` catalog of the source. -/
def BUSINESS_FIELDS : List BField :=
  [⟨"exShowroomPrice", "Ex Showroom price (excl Incentives/ Subsidy)"⟩,
   ⟨"emps", "EMPS"⟩,
   ⟨"stateSubsidy", "State Subsidy (Claimed after delivery)"⟩,
   ⟨"postGstDiscount", "Post GST Discount"⟩,
   ⟨"p1Total", "P1 Total (Excl Insurance and RTO but incl subsidys)"⟩,
   ⟨"insurance", "Insurance"⟩,
   ⟨"municipalTax", "Municipal tax (% tax on Ex showroom excl. subsidy) [130]"⟩,
   ⟨"rtoRoadSafety", "RTO - Road safety tax / CESS."⟩,
   ⟨"smartCardFee", "Smart card fee & RTO registration"⟩,
   ⟨"postalCharges", "Postal Charges."⟩,
   ⟨"serviceCharge", "Service Charge and Penality"⟩,
   ⟨"roadTax", "Road tax (% tax on Ex showroom excl. subsidy) [130]"⟩,
   ⟨"effectiveOnRoadCore", "Effective on road Price to customer - Core"⟩,
   ⟨"effectiveOnRoadPro", "Effective on road Price to customer - Pro"⟩]

/-- The denylist test of the fuzzy pass: the lower-cased column text contains
one of the seven unrelated-domain tokens. -/
def denyB (columnLower : String) : Bool :=
  includesS columnLower "product" || includesS columnLower "name" ||
  includesS columnLower "model" || includesS columnLower "code" ||
  includesS columnLower "category" || includesS columnLower "region" ||
  includesS columnLower "status"

/-- The score computed by the fuzzy-matching loop body of `findBestMatch` for
one (non-denylisted) column: 0.8 on substring containment between the
column and the field key or label, otherwise the maximum of the similarity
scores and the keyword score, plus the `+0.2` domain boosts when the
pre-boost score is below 0.8. -/
def fuzzyScore (f : BField) (column : String) : ℚ :=
  let fieldKey := toLowerS f.key
  let fieldLabel := toLowerS f.label
  let fieldKeywords := getKeywords f.label
  let columnLower := toLowerS column
  let columnKeywords := getKeywords column
  if includesS fieldKey columnLower || includesS columnLower fieldKey ||
     includesS fieldLabel columnLower || includesS columnLower fieldLabel then mkRat 4 5
  else
    let score1 := qmax 0 (calculateSimilarity fieldKey columnLower)
    let score2 := qmax score1 (calculateSimilarity fieldLabel column)
    let keywordScore := fieldKeywords.foldl (fun ks fieldKeyword =>
      let ks1 := columnKeywords.foldl
        (fun k colKeyword => qmax k (calculateSimilarity fieldKeyword colKeyword)) ks
      if includesS columnLower fieldKeyword then qmax ks1 (mkRat 7 10) else ks1) 0
    let score3 := qmax score2 keywordScore
    if score3 < mkRat 4 5 then
      let s4 := if includesS fieldKey "price" && includesS columnLower "price" then qadd score3 (mkRat 1 5) else score3
      let s5 := if includesS fieldKey "tax" && includesS columnLower "tax" then qadd s4 (mkRat 1 5) else s4
      let s6 := if includesS fieldKey "insurance" && includesS columnLower "insurance" then qadd s5 (mkRat 1 5) else s5
      let s7 := if includesS fieldKey "subsidy" && includesS columnLower "subsidy" then qadd s6 (mkRat 1 5) else s6
      let s8 := if includesS fieldKey "discount" && includesS columnLower "discount" then qadd s7 (mkRat 1 5) else s7
      let s9 := if includesS fieldKey "road" && includesS columnLower "road" then qadd s8 (mkRat 1 5) else s8
      if includesS fieldKey "rto" && includesS columnLower "rto" then qadd s9 (mkRat 1 5) else s9
    else score3

/-- One step of the fuzzy-matching `forEach` loop of `findBestMatch`: skip
denylisted columns, otherwise update `(bestMatch, bestScore)` when
`score > bestScore && score >= threshold` with `threshold = 0.5`. -/
def fuzzyStep (f : BField) (st : String × ℚ) (column : String) : String × ℚ :=
  let columnLower := toLowerS column
  if denyB columnLower then st
  else
    let score := fuzzyScore f column
    if st.2 < score ∧ mkRat 1 2 ≤ score then (column, score) else st

/-- The whole fuzzy pass of `findBestMatch`: fold the loop over the columns
starting from `('', 0)` and turn the final `bestMatch` into an optional
result (`return bestMatch || null`). -/
def fuzzyScan (f : BField) (columnNames : List String) : Option String :=
  let final := columnNames.foldl (fuzzyStep f) ("", 0)
  if final.1 = "" then none else some final.1

/-- The first loop of `findBestMatch`: for each column in order, return it
immediately on a case-insensitive exact match with the (lower-cased) key or
label, or on a cleaned exact match after `replace(/[^a-z0-9]/g, '')`. -/
def exactScan (fieldKey fieldLabel : String) : List String → Option String
  | [] => none
  | column :: rest =>
    let columnLower := toLowerS column
    if columnLower = fieldKey || columnLower = fieldLabel then some column
    else if stripNonAlnum columnLower = stripNonAlnum fieldKey ||
            stripNonAlnum columnLower = stripNonAlnum fieldLabel then some column
    else exactScan fieldKey fieldLabel rest

/-- Does one column pass either check of the first loop of `findBestMatch`
(exact or cleaned-exact, against key or label)? -/
def exactishB (f : BField) (column : String) : Bool :=
  let columnLower := toLowerS column
  (columnLower = toLowerS f.key || columnLower = toLowerS f.label) ||
  (stripNonAlnum columnLower = stripNonAlnum (toLowerS f.key) ||
   stripNonAlnum columnLower = stripNonAlnum (toLowerS f.label))

/-- `findBestMatch` of the source: the exact/cleaned-exact loop first, the
fuzzy pass only if that loop returned nothing. -/
def findBestMatch (f : BField) (columnNames : List String) : Option String :=
  match exactScan (toLowerS f.key) (toLowerS f.label) columnNames with
  | some c => some c
  | none => fuzzyScan f columnNames

/-- A field-to-column mapping, modelling the JavaScript object `mappings`:
an association list where the most recent assignment is at the head. -/
abbrev Mapping := List (String × String)

/-- Look up a key: the value of the most recent assignment, if any. -/
def lookupStr : Mapping → String → Option String
  | [], _ => none
  | (k, v) :: m, key => if k = key then some v else lookupStr m key

/-- JavaScript falsiness of `mappings[key]`: the key is unassigned or
assigned the empty string. -/
def falsyAt (m : Mapping) (key : String) : Bool :=
  match lookupStr m key with
  | none => true
  | some s => s = ""

/-- The running state of `autoMapColumns`: the mappings object and the
`usedColumns` set (modelled as the list of claimed columns). -/
abbrev MapSt := Mapping × List String

/-- One engine step: if the pass-specific `pick` selects a column, assign it
to the field (`mappings[field.key] = c`) and mark it used; else no change. -/
def stepWith (pick : MapSt → BField → Option String) (st : MapSt) (f : BField) : MapSt :=
  match pick st f with
  | some c => ((f.key, c) :: st.1, c :: st.2)
  | none => st

/-- The perfect exact-match test of the first pass of `autoMapColumns`. -/
def exactPred (f : BField) (col : String) : Bool :=
  let colLower := toLowerS col
  colLower = toLowerS f.key || colLower = toLowerS f.label

/-- The cleaned exact-match test of the second pass of `autoMapColumns`. -/
def cleanedPred (f : BField) (col : String) : Bool :=
  let colLower := toLowerS col
  stripNonAlnum colLower = stripNonAlnum (toLowerS f.key) ||
  stripNonAlnum colLower = stripNonAlnum (toLowerS f.label)

/-- Pass-1 pick: `columnNames.find(exact match)`, claimed only when truthy
and not already used. -/
def pick1 (columnNames : List String) (st : MapSt) (f : BField) : Option String :=
  match columnNames.find? (fun col => exactPred f col) with
  | some c => if c ≠ "" ∧ ¬ st.2.contains c then some c else none
  | none => none

/-- Pass-2 pick: first unused column whose cleaned form equals the cleaned
key or label, claimed when truthy. -/
def pick2 (columnNames : List String) (st : MapSt) (f : BField) : Option String :=
  match columnNames.find? (fun col => ¬ st.2.contains col ∧ cleanedPred f col) with
  | some c => if c ≠ "" then some c else none
  | none => none

/-- Pass-3 pick: `findBestMatch` on the columns not yet used, claimed when
truthy. -/
def pick3 (columnNames : List String) (st : MapSt) (f : BField) : Option String :=
  match findBestMatch f (columnNames.filter (fun col => ¬ st.2.contains col)) with
  | some c => if c ≠ "" then some c else none
  | none => none

/-- Number of segments of `label.split(' ')` (the specificity measure used
to order the fuzzy pass). -/
def tokenCount (s : String) : Nat := (splitChar ' ' s.data).length

/-- Descending insertion by `label.split(' ').length`: an element is placed
before the first element that is not strictly more specific.  Under the
right fold of `sortByTokDesc` the elements further right are inserted first,
so each element ends up before every equally specific element that follows
it in the original list: equal token counts keep their original order, the
behaviour of the (stable, ES2019) JavaScript `Array.prototype.sort` with
comparator `b.specificity - a.specificity`. -/
def insertByTok (f : BField) : List BField → List BField
  | [] => [f]
  | g :: gs =>
    if tokenCount g.label ≤ tokenCount f.label then f :: g :: gs
    else g :: insertByTok f gs

/-- The specificity sort of the third pass: descending by token count and
stable on ties (`sortByTokDesc_filter`). -/
def sortByTokDesc (l : List BField) : List BField := l.foldr insertByTok []

/-- Passes 1 (catalog-wide exact) of `autoMapColumns`, over a field catalog
given as a parameter (the source hard-codes `BUSINESS_FIELDS`; the spec's
catalog contract makes it configuration). -/
def autoMapPass1 (fields : List BField) (columnNames : List String) : MapSt :=
  fields.foldl (stepWith (pick1 columnNames)) ([], [])

/-- Passes 1 and 2 of `autoMapColumns`: exact matches for every field, then
cleaned exact matches for the remaining (falsy) fields. -/
def autoMapPass12 (fields : List BField) (columnNames : List String) : MapSt :=
  let st1 := autoMapPass1 fields columnNames
  (fields.filter (fun f => falsyAt st1.1 f.key)).foldl (stepWith (pick2 columnNames)) st1

/-- The fields processed by the third (fuzzy) pass, in processing order:
the still-unmapped fields sorted by specificity, longer labels first. -/
def pass3Fields (fields : List BField) (columnNames : List String) : List BField :=
  sortByTokDesc ((fields.filter
    (fun f => falsyAt (autoMapPass12 fields columnNames).1 f.key)))

/-- `autoMapColumns` over an explicit catalog: the three passes in order,
returning the final mappings object. -/
def autoMapColumnsWith (fields : List BField) (columnNames : List String) : Mapping :=
  ((pass3Fields fields columnNames).foldl (stepWith (pick3 columnNames))
    (autoMapPass12 fields columnNames)).1

/-- `autoMapColumns` of the source, on the fixed `BUSINESS_FIELDS` catalog. -/
def autoMapColumns (columnNames : List String) : Mapping :=
  autoMapColumnsWith BUSINESS_FIELDS columnNames

/-- The result record of `validateColumnMappings`. -/
structure ValidationResult where
  errors : List String
  warnings : List String
  isValid : Bool
  deriving DecidableEq, Repr

/-- The duplicate detector of `validateColumnMappings`:
`values.filter((value, index) => values.indexOf(value) !== index)`, i.e.
every occurrence other than the first of its value. -/
def dupEntries (l : List String) : List String :=
  (l.enum.filter (fun p => l.indexOf p.2 ≠ p.1)).map Prod.snd

/-- `validateColumnMappings` of the source: one `Missing mapping` error per
field whose mapping is falsy, one `Invalid column` error per mapped column
absent from the column list, a single warning when duplicate (truthy)
mapped values exist, and `isValid = (errors.length === 0)`. -/
def validateColumnMappings (mappings : Mapping) (columnNames : List String) :
    ValidationResult :=
  let errors := BUSINESS_FIELDS.foldl (fun es f =>
    match lookupStr mappings f.key with
    | none => es ++ ["Missing mapping for: " ++ f.label]
    | some c =>
      if c = "" then es ++ ["Missing mapping for: " ++ f.label]
      else if ¬ columnNames.contains c then
        es ++ ["Invalid column selected for " ++ f.label ++ ": \"" ++ c ++
               "\" not found in Excel file"]
      else es) []
  let mappedValues := (mappings.map Prod.snd).filter (fun v => v ≠ "")
  let duplicates := dupEntries mappedValues
  let warnings :=
    if duplicates ≠ [] then
      ["Duplicate column mappings detected: " ++ String.intercalate ", " duplicates]
    else []
  { errors := errors, warnings := warnings, isValid := errors.isEmpty }

/-- Cells of one DP row strictly after the cell for the first-string prefix
`q` (proof helper for `levTable_eq_lev`). -/
def restRow (u q : List Char) : List Char → List Nat
  | [] => []
  | c :: s => lev (q ++ [c]) u :: restRow u (q ++ [c]) s

/-- One full DP row for the second-string prefix `u`, starting at the
first-string prefix `q` (proof helper for `levTable_eq_lev`). -/
def levRowSpec (u q s : List Char) : List Nat := lev q u :: restRow u q s

/-- Invariant transport for the engine folds: every visible assignment
satisfies `Q`. -/
def LookupInv (Q : String → String → Prop) (st : MapSt) : Prop :=
  ∀ k v, lookupStr st.1 k = some v → Q k v

/-- The injectivity invariant of the engine state: every visible assignment
is a used column, and no column is visibly assigned to two keys. -/
def InjInv (st : MapSt) : Prop :=
  (∀ k v, lookupStr st.1 k = some v → v ∈ st.2) ∧
  (∀ k1 k2 v, lookupStr st.1 k1 = some v → lookupStr st.1 k2 = some v → k1 = k2)

/-- A cleaned match between a field and a column (the pass-2 criterion as a
proposition). -/
def CleanedMatch (f : BField) (col : String) : Prop :=
  stripNonAlnum (toLowerS col) = stripNonAlnum (toLowerS f.key) ∨
  stripNonAlnum (toLowerS col) = stripNonAlnum (toLowerS f.label)

/-- Ownership invariant used for the exact-precedence proof: every used
column is non-empty, and is visibly assigned to some catalog field whose
cleaned key or label it matches. -/
def OwnInv (st : MapSt) : Prop :=
  ∀ v ∈ st.2, v ≠ "" ∧
    ∃ g ∈ BUSINESS_FIELDS, CleanedMatch g v ∧ lookupStr st.1 g.key = some v

/-- Invariant of the fuzzy fold state: the best match is still unset, or it
scored at least the threshold, carries its own fuzzy score, and is not
denylisted. -/
def GoodSt (f : BField) (st : String × ℚ) : Prop :=
  st.1 = "" ∨ (mkRat 1 2 ≤ st.2 ∧ st.2 = fuzzyScore f st.1 ∧ denyB (toLowerS st.1) = false)

/-- The per-field error contribution of `validateColumnMappings`. -/
def fieldErrors (m : Mapping) (cols : List String) (f : BField) : List String :=
  match lookupStr m f.key with
  | none => ["Missing mapping for: " ++ f.label]
  | some c =>
    if c = "" then ["Missing mapping for: " ++ f.label]
    else if ¬ cols.contains c then
      ["Invalid column selected for " ++ f.label ++ ": \"" ++ c ++
       "\" not found in Excel file"]
    else []

/-- The invalid-column test of `validateColumnMappings`, as a predicate. -/
def invalidB (m : Mapping) (cols : List String) (f : BField) : Bool :=
  match lookupStr m f.key with
  | none => false
  | some c => ¬ (c = "") && ¬ cols.contains c

lemma lev_nil_left (ys : List Char) : lev [] ys = ys.length := by simp [lev]

lemma lev_nil_right (xs : List Char) : lev xs [] = xs.length := by
  cases xs <;> simp [lev]

lemma lev_cons_cons (x y : Char) (xs ys : List Char) :
    lev (x :: xs) (y :: ys) =
      min (lev xs (y :: ys) + 1)
        (min (lev (x :: xs) ys + 1) (lev xs ys + (if x = y then 0 else 1))) := by
  rw [lev]

set_option maxHeartbeats 4000000 in
lemma min_shuffle (a1 a2 a3 a4 a5 a6 a7 a8 a9 cab cxy : Nat) :
    min (min (a1 + 1) (min (a4 + 1) (a7 + cab)) + 1)
      (min (min (a2 + 1) (min (a5 + 1) (a8 + cab)) + 1)
        (min (a3 + 1) (min (a6 + 1) (a9 + cab)) + cxy))
    = min (min (a1 + 1) (min (a2 + 1) (a3 + cxy)) + 1)
      (min (min (a4 + 1) (min (a5 + 1) (a6 + cxy)) + 1)
        (min (a7 + 1) (min (a8 + 1) (a9 + cxy)) + cab)) := by
  simp only [← min_add_add_right, min_assoc]
  refine le_antisymm ?_ ?_ <;> (repeat' apply le_min) <;> omega

set_option maxHeartbeats 1000000 in
lemma lev_append_append (a b : Char) (u q : List Char) :
    lev (q ++ [a]) (u ++ [b]) =
      min (lev q (u ++ [b]) + 1)
        (min (lev (q ++ [a]) u + 1) (lev q u + (if a = b then 0 else 1))) := by
  induction u generalizing q with
  | nil =>
    induction q with
    | nil =>
      simp only [List.nil_append, lev_nil_left, lev_nil_right, lev_cons_cons,
        List.length_cons, List.length_nil]
    | cons x q' IHq =>
      simp only [List.nil_append, List.cons_append, lev_cons_cons, lev_nil_left,
        lev_nil_right, List.length_cons, List.length_append, List.length_nil] at IHq ⊢
      rw [IHq]
      generalize (if a = b then (0 : Nat) else 1) = cab
      generalize (if x = b then (0 : Nat) else 1) = cxb
      omega
  | cons y u' IHu =>
    induction q with
    | nil =>
      have h1 := IHu []
      simp only [List.nil_append, List.cons_append, lev_cons_cons, lev_nil_left,
        List.length_cons, List.length_append, List.length_nil] at h1 ⊢
      rw [h1]
      generalize (if a = b then (0 : Nat) else 1) = cab
      generalize (if a = y then (0 : Nat) else 1) = cay
      omega
    | cons x q' IHq =>
      have h1 := IHu (x :: q')
      have h2 := IHu q'
      simp only [List.cons_append, lev_cons_cons] at h1 h2 IHq ⊢
      rw [h1, h2, IHq]
      exact min_shuffle _ _ _ _ _ _ _ _ _ _ _

lemma rowRest_spec (c2 : Char) (u : List Char) :
    ∀ (s q : List Char),
      rowRest c2 s (restRow u q s) (lev q u) (lev q (u ++ [c2])) =
        restRow (u ++ [c2]) q s := by
  intro s
  induction s with
  | nil => intro q; simp [rowRest, restRow]
  | cons c1 s' IH =>
    intro q
    simp only [restRow, rowRest]
    rw [← lev_append_append c1 c2 u q]
    exact congrArg (lev (q ++ [c1]) (u ++ [c2]) :: ·) (IH (q ++ [c1]))

lemma nextRow_spec (c2 : Char) (u s1 : List Char) :
    nextRow c2 s1 (levRowSpec u [] s1) = levRowSpec (u ++ [c2]) [] s1 := by
  simp only [levRowSpec, nextRow]
  have h0 : lev ([] : List Char) u + 1 = lev ([] : List Char) (u ++ [c2]) := by
    simp [lev_nil_left]
  rw [h0, rowRest_spec c2 u s1 []]

lemma foldl_rows (s1 : List Char) :
    ∀ (v u : List Char),
      v.foldl (fun row c2 => nextRow c2 s1 row) (levRowSpec u [] s1) =
        levRowSpec (u ++ v) [] s1 := by
  intro v
  induction v with
  | nil => intro u; simp
  | cons c2 v' IH =>
    intro u
    simp only [List.foldl_cons]
    rw [nextRow_spec c2 u s1, IH (u ++ [c2])]
    simp

lemma restRow_nil_u :
    ∀ (s q : List Char), restRow [] q s = List.range' (q.length + 1) s.length := by
  intro s
  induction s with
  | nil => intro q; simp [restRow]
  | cons c s' IH =>
    intro q
    simp only [restRow, lev_nil_right, List.length_append, List.length_cons,
      List.length_nil]
    rw [IH (q ++ [c])]
    simp [List.range']

lemma levRowSpec_init (s1 : List Char) :
    levRowSpec [] [] s1 = List.range (s1.length + 1) := by
  rw [List.range_eq_range' (s1.length + 1)]
  simp only [levRowSpec, lev_nil_right, List.length_nil]
  rw [restRow_nil_u s1 []]
  simp [List.range']

lemma levRowSpec_getLastD (u : List Char) :
    ∀ (s q : List Char) (d : Nat), (levRowSpec u q s).getLastD d = lev (q ++ s) u := by
  intro s
  induction s with
  | nil => intro q d; simp [levRowSpec, restRow]
  | cons c s' IH =>
    intro q d
    have hrow : levRowSpec u q (c :: s') = lev q u :: levRowSpec u (q ++ [c]) s' := by
      simp [levRowSpec, restRow]
    rw [hrow, List.getLastD_cons, IH (q ++ [c]) (lev q u)]
    simp

/-- The dynamic-programming table in `calculateSimilarity` computes the
classic Levenshtein distance. -/
lemma levTable_eq_lev (s1 s2 : List Char) : levTable s1 s2 = lev s1 s2 := by
  unfold levTable
  rw [← levRowSpec_init s1]
  have h := foldl_rows s1 s2 []
  simp only [List.nil_append] at h
  rw [h, levRowSpec_getLastD s2 s1 [] 0]
  simp

lemma lev_le_max (xs : List Char) :
    ∀ ys : List Char, lev xs ys ≤ max xs.length ys.length := by
  induction xs with
  | nil => intro ys; simp [lev_nil_left]
  | cons x xs' IH =>
    intro ys
    induction ys with
    | nil => simp [lev_nil_right]
    | cons y ys' IHy =>
      rw [lev_cons_cons]
      have h1 := IH (y :: ys')
      have h2 := IH ys'
      have hite : (if x = y then (0 : Nat) else 1) ≤ 1 := by split <;> omega
      simp only [List.length_cons] at h1 h2 IHy ⊢
      omega

lemma qadd_eq_add (a b : ℚ) : qadd a b = a + b := by rw [qadd, Rat.add_def']

lemma qsub_eq_sub (a b : ℚ) : qsub a b = a - b := by rw [qsub, Rat.sub_def']

lemma qmax_eq_max (a b : ℚ) : qmax a b = max a b := by
  by_cases h : a ≤ b <;> simp [qmax, max_def, h]

lemma mkRat_cast_div (n d : Nat) : (mkRat n d : ℚ) = (n : ℚ) / (d : ℚ) := by
  rw [Rat.mkRat_eq_divInt, Rat.divInt_eq_div]
  norm_num


lemma mkRat_four_fifths : (mkRat 4 5 : ℚ) = 4/5 := by
  rw [Rat.mkRat_eq_divInt, Rat.divInt_eq_div]; norm_num

lemma strings_eq_of_data_nil {s t : String} (hs : s.data = []) (ht : t.data = []) : s = t := by
  cases s; cases t; simp_all

/-- C5 : `calculateSimilarity` is bounded in [0,1] and follows the staged
definition. -/
theorem calculateSimilarity_staged (a b : String) :
    (0 ≤ calculateSimilarity a b ∧ calculateSimilarity a b ≤ 1) ∧
    calculateSimilarity a b =
      (if normS a = normS b then (1 : ℚ)
       else if includesS (normS a) (normS b) || includesS (normS b) (normS a) then 4/5
       else 1 - (lev (normS a).data (normS b).data : ℚ) /
              (max (normS a).data.length (normS b).data.length : ℚ)) := by
  have hmain : calculateSimilarity a b =
      (if normS a = normS b then (1 : ℚ)
       else if includesS (normS a) (normS b) || includesS (normS b) (normS a) then 4/5
       else 1 - (lev (normS a).data (normS b).data : ℚ) /
              (max (normS a).data.length (normS b).data.length : ℚ)) := by
    unfold calculateSimilarity normS
    by_cases h1 : stripNonAlnum (toLowerS a) = stripNonAlnum (toLowerS b)
    · simp [h1]
    · simp only [h1, if_false]
      by_cases h2 : (includesS (stripNonAlnum (toLowerS a)) (stripNonAlnum (toLowerS b)) ||
          includesS (stripNonAlnum (toLowerS b)) (stripNonAlnum (toLowerS a))) = true
      · simp [h2, mkRat_four_fifths]
      · simp only [h2, if_false]
        have hm : ¬ (max (stripNonAlnum (toLowerS a)).data.length
            (stripNonAlnum (toLowerS b)).data.length = 0) := by
          intro h0
          have ha : (stripNonAlnum (toLowerS a)).data.length = 0 := by omega
          have hb : (stripNonAlnum (toLowerS b)).data.length = 0 := by omega
          exact h1 (strings_eq_of_data_nil (List.length_eq_zero.mp ha)
            (List.length_eq_zero.mp hb))
        simp only [hm, if_false]
        rw [qsub_eq_sub, levTable_eq_lev, mkRat_cast_div]
        norm_num
  refine ⟨?_, hmain⟩
  rw [hmain]
  by_cases h1 : normS a = normS b
  · rw [if_pos h1]; norm_num
  · rw [if_neg h1]
    by_cases h2 : (includesS (normS a) (normS b) || includesS (normS b) (normS a)) = true
    · rw [if_pos h2]; norm_num
    · rw [if_neg h2]
      have hm : 0 < max (normS a).data.length (normS b).data.length := by
        rcases Nat.eq_zero_or_pos (max (normS a).data.length (normS b).data.length) with h0 | h0
        · exfalso
          have ha : (normS a).data.length = 0 := by omega
          have hb : (normS b).data.length = 0 := by omega
          exact h1 (strings_eq_of_data_nil (List.length_eq_zero.mp ha)
            (List.length_eq_zero.mp hb))
        · exact h0
      have hd : lev (normS a).data (normS b).data ≤
          max (normS a).data.length (normS b).data.length := lev_le_max _ _
      have hmq : (0 : ℚ) < (max (normS a).data.length (normS b).data.length : ℚ) :=
        by exact_mod_cast hm
      have hdq : (lev (normS a).data (normS b).data : ℚ) ≤
          (max (normS a).data.length (normS b).data.length : ℚ) := by exact_mod_cast hd
      have hle : (lev (normS a).data (normS b).data : ℚ) /
          (max (normS a).data.length (normS b).data.length : ℚ) ≤ 1 :=
        (div_le_one hmq).mpr hdq
      have hge : (0 : ℚ) ≤ (lev (normS a).data (normS b).data : ℚ) /
          (max (normS a).data.length (normS b).data.length : ℚ) := by positivity
      constructor
      · linarith
      · linarith


lemma insertByTok_perm (f : BField) (l : List BField) : (insertByTok f l).Perm (f :: l) := by
  induction l with
  | nil => simp [insertByTok]
  | cons g gs IH =>
    simp only [insertByTok]
    split
    · exact List.Perm.refl _
    · exact (IH.cons g).trans (List.Perm.swap f g gs)

lemma sortByTokDesc_perm (l : List BField) : (sortByTokDesc l).Perm l := by
  induction l with
  | nil => simp [sortByTokDesc]
  | cons f fs IH =>
    simp only [sortByTokDesc, List.foldr_cons]
    exact (insertByTok_perm f _).trans (IH.cons f)

lemma insertByTok_sorted (f : BField) :
    ∀ {l : List BField},
      l.Pairwise (fun a b => tokenCount b.label ≤ tokenCount a.label) →
      (insertByTok f l).Pairwise (fun a b => tokenCount b.label ≤ tokenCount a.label) := by
  intro l
  induction l with
  | nil => intro _; simp [insertByTok]
  | cons g gs IH =>
    intro h
    rcases List.pairwise_cons.mp h with ⟨hg, hgs⟩
    simp only [insertByTok]
    split
    · next hle =>
      refine List.pairwise_cons.mpr ⟨?_, h⟩
      intro b hb
      rcases List.mem_cons.mp hb with rfl | hb
      · exact hle
      · exact le_trans (hg b hb) hle
    · next hnle =>
      refine List.pairwise_cons.mpr ⟨?_, IH hgs⟩
      intro b hb
      rcases List.mem_cons.mp ((insertByTok_perm f gs).mem_iff.mp hb) with rfl | hb
      · omega
      · exact hg b hb

lemma sortByTokDesc_sorted (l : List BField) :
    (sortByTokDesc l).Pairwise (fun a b => tokenCount b.label ≤ tokenCount a.label) := by
  induction l with
  | nil => simp [sortByTokDesc]
  | cons f fs IH =>
    simp only [sortByTokDesc, List.foldr_cons]
    exact insertByTok_sorted f IH

lemma insertByTok_filter (f : BField) (k : Nat) :
    ∀ l : List BField,
      (insertByTok f l).filter (fun g => tokenCount g.label = k) =
        if tokenCount f.label = k then
          f :: l.filter (fun g => tokenCount g.label = k)
        else l.filter (fun g => tokenCount g.label = k) := by
  intro l
  induction l with
  | nil =>
    by_cases hf : tokenCount f.label = k <;> simp [insertByTok, List.filter, hf]
  | cons g gs IH =>
    simp only [insertByTok]
    split
    · next hle =>
      by_cases hf : tokenCount f.label = k <;> simp [List.filter_cons, hf]
    · next hnle =>
      by_cases hf : tokenCount f.label = k
      · have hg : ¬ tokenCount g.label = k := by omega
        simp [List.filter_cons, hf, hg, IH]
      · simp [List.filter_cons, hf, IH]

lemma sortByTokDesc_filter (k : Nat) :
    ∀ l : List BField,
      (sortByTokDesc l).filter (fun g => tokenCount g.label = k) =
        l.filter (fun g => tokenCount g.label = k) := by
  intro l
  induction l with
  | nil => rfl
  | cons f fs IH =>
    have hstep : sortByTokDesc (f :: fs) = insertByTok f (sortByTokDesc fs) := rfl
    rw [hstep, insertByTok_filter]
    by_cases hf : tokenCount f.label = k
    · simp [List.filter_cons, hf, IH]
    · simp [List.filter_cons, hf, IH]

lemma lookupStr_cons_ne {m : Mapping} {k key : String} (v : String) (h : k ≠ key) :
    lookupStr ((k, v) :: m) key = lookupStr m key := by simp [lookupStr, h]

lemma lookupStr_cons_self {m : Mapping} {k : String} (v : String) :
    lookupStr ((k, v) :: m) k = some v := by simp [lookupStr]

lemma stepWith_some {pick : MapSt → BField → Option String} {st : MapSt}
    {f : BField} {c : String} (hp : pick st f = some c) :
    stepWith pick st f = ((f.key, c) :: st.1, c :: st.2) := by
  unfold stepWith; rw [hp]

lemma stepWith_none {pick : MapSt → BField → Option String} {st : MapSt}
    {f : BField} (hp : pick st f = none) : stepWith pick st f = st := by
  unfold stepWith; rw [hp]

lemma stepWith_fst_lookup_ne (pick : MapSt → BField → Option String) (st : MapSt)
    (f : BField) {k : String} (h : f.key ≠ k) :
    lookupStr (stepWith pick st f).1 k = lookupStr st.1 k := by
  cases hp : pick st f with
  | none => rw [stepWith_none hp]
  | some c => rw [stepWith_some hp]; exact lookupStr_cons_ne c h

lemma foldl_stepWith_lookup_ne (pick : MapSt → BField → Option String) {k : String} :
    ∀ (L : List BField) (st : MapSt), (∀ g ∈ L, g.key ≠ k) →
      lookupStr ((L.foldl (stepWith pick) st).1) k = lookupStr st.1 k := by
  intro L
  induction L with
  | nil => intro st _; rfl
  | cons f L2 IH =>
    intro st h
    rw [List.foldl_cons, IH _ (fun g hg => h g (List.mem_cons_of_mem f hg)),
      stepWith_fst_lookup_ne _ _ _ (h f (List.mem_cons_self f L2))]

lemma foldl_stepWith_falsy (pick : MapSt → BField → Option String) {k : String}
    (L : List BField) (st : MapSt) (h : ∀ g ∈ L, g.key ≠ k) :
    falsyAt ((L.foldl (stepWith pick) st).1) k = falsyAt st.1 k := by
  unfold falsyAt
  rw [foldl_stepWith_lookup_ne pick L st h]

lemma stepWith_lookupInv {Q : String → String → Prop}
    {pick : MapSt → BField → Option String} {st : MapSt} {f : BField}
    (hf : ∀ c, pick st f = some c → Q f.key c) (h : LookupInv Q st) :
    LookupInv Q (stepWith pick st f) := by
  cases hp : pick st f with
  | none => rw [stepWith_none hp]; exact h
  | some c =>
    rw [stepWith_some hp]
    intro k v hkv
    dsimp only at hkv
    by_cases hk : f.key = k
    · subst hk
      rw [lookupStr_cons_self] at hkv
      cases hkv
      exact hf c hp
    · rw [lookupStr_cons_ne c hk] at hkv
      exact h k v hkv

lemma foldl_stepWith_lookupInv {Q : String → String → Prop}
    {pick : MapSt → BField → Option String} :
    ∀ (L : List BField) (st : MapSt),
      (∀ st2 g c, g ∈ L → pick st2 g = some c → Q g.key c) →
      LookupInv Q st → LookupInv Q (L.foldl (stepWith pick) st) := by
  intro L
  induction L with
  | nil => intro st _ h; exact h
  | cons f L2 IH =>
    intro st hp h
    rw [List.foldl_cons]
    exact IH _ (fun st2 g c hg => hp st2 g c (List.mem_cons_of_mem f hg))
      (stepWith_lookupInv (fun c => hp st f c (List.mem_cons_self f L2)) h)

lemma stepWith_injInv {pick : MapSt → BField → Option String} {st : MapSt} {f : BField}
    (hfresh : ∀ c, pick st f = some c → c ∉ st.2) (h : InjInv st) :
    InjInv (stepWith pick st f) := by
  obtain ⟨hmem, hinj⟩ := h
  cases hp : pick st f with
  | none => rw [stepWith_none hp]; exact ⟨hmem, hinj⟩
  | some c =>
    rw [stepWith_some hp]
    constructor
    · intro k v hkv
      dsimp only at hkv ⊢
      by_cases hk : f.key = k
      · subst hk
        rw [lookupStr_cons_self] at hkv
        cases hkv
        exact List.mem_cons_self c st.2
      · rw [lookupStr_cons_ne c hk] at hkv
        exact List.mem_cons_of_mem c (hmem k v hkv)
    · intro k1 k2 v h1 h2
      dsimp only at h1 h2
      by_cases hk1 : f.key = k1 <;> by_cases hk2 : f.key = k2
      · exact hk1.symm.trans hk2
      · subst hk1
        rw [lookupStr_cons_self] at h1
        cases h1
        rw [lookupStr_cons_ne c hk2] at h2
        exact absurd (hmem k2 c h2) (hfresh c hp)
      · subst hk2
        rw [lookupStr_cons_self] at h2
        cases h2
        rw [lookupStr_cons_ne c hk1] at h1
        exact absurd (hmem k1 c h1) (hfresh c hp)
      · rw [lookupStr_cons_ne c hk1] at h1
        rw [lookupStr_cons_ne c hk2] at h2
        exact hinj k1 k2 v h1 h2

lemma foldl_stepWith_injInv {pick : MapSt → BField → Option String} :
    ∀ (L : List BField) (st : MapSt),
      (∀ st2 g c, g ∈ L → pick st2 g = some c → c ∉ st2.2) →
      InjInv st → InjInv (L.foldl (stepWith pick) st) := by
  intro L
  induction L with
  | nil => intro st _ h; exact h
  | cons f L2 IH =>
    intro st hp h
    rw [List.foldl_cons]
    exact IH _ (fun st2 g c hg => hp st2 g c (List.mem_cons_of_mem f hg))
      (stepWith_injInv (fun c => hp st f c (List.mem_cons_self f L2)) h)

lemma fuzzyStep_good {f : BField} {st : String × ℚ} (col : String) (h : GoodSt f st) :
    GoodSt f (fuzzyStep f st col) := by
  unfold fuzzyStep
  dsimp only
  by_cases hd : denyB (toLowerS col) = true
  · rw [if_pos hd]; exact h
  · rw [if_neg hd]
    by_cases hc : st.2 < fuzzyScore f col ∧ mkRat 1 2 ≤ fuzzyScore f col
    · rw [if_pos hc]
      right
      exact ⟨hc.2, rfl, by rwa [Bool.not_eq_true] at hd⟩
    · rw [if_neg hc]; exact h

lemma foldl_fuzzyStep_good (f : BField) :
    ∀ (cols : List String) (st : String × ℚ), GoodSt f st →
      GoodSt f (cols.foldl (fuzzyStep f) st) := by
  intro cols
  induction cols with
  | nil => intro st h; exact h
  | cons col rest IH =>
    intro st h
    rw [List.foldl_cons]
    exact IH _ (fuzzyStep_good col h)

lemma fuzzyScan_good {f : BField} {cols : List String} {c : String}
    (h : fuzzyScan f cols = some c) :
    mkRat 1 2 ≤ fuzzyScore f c ∧ denyB (toLowerS c) = false := by
  unfold fuzzyScan at h
  dsimp only at h
  have hg := foldl_fuzzyStep_good f cols ("", 0) (Or.inl rfl)
  by_cases he : (cols.foldl (fuzzyStep f) ("", 0)).1 = ""
  · rw [if_pos he] at h; cases h
  · rw [if_neg he] at h
    cases h
    rcases hg with he2 | ⟨hs, heq, hd⟩
    · exact absurd he2 he
    · exact ⟨heq ▸ hs, hd⟩

lemma fuzzyStep_stuck {f : BField} {col : String}
    (h : denyB (toLowerS col) = false → fuzzyScore f col < mkRat 1 2) :
    fuzzyStep f ("", 0) col = ("", 0) := by
  unfold fuzzyStep
  dsimp only
  by_cases hd : denyB (toLowerS col) = true
  · rw [if_pos hd]
  · rw [if_neg hd]
    have hlt := h (by rwa [Bool.not_eq_true] at hd)
    rw [if_neg]
    rintro ⟨-, hge⟩
    exact absurd hge (not_le.mpr hlt)

lemma foldl_fuzzyStep_stuck (f : BField) :
    ∀ cols : List String,
      (∀ c ∈ cols, denyB (toLowerS c) = false → fuzzyScore f c < mkRat 1 2) →
      cols.foldl (fuzzyStep f) ("", 0) = ("", 0) := by
  intro cols
  induction cols with
  | nil => intro _; rfl
  | cons col rest IH =>
    intro h
    rw [List.foldl_cons, fuzzyStep_stuck (h col (List.mem_cons_self col rest)),
      IH (fun c hc => h c (List.mem_cons_of_mem col hc))]

lemma fuzzyFold_mem (f : BField) :
    ∀ (cols : List String) (st : String × ℚ),
      (cols.foldl (fuzzyStep f) st).1 = st.1 ∨ (cols.foldl (fuzzyStep f) st).1 ∈ cols := by
  intro cols
  induction cols with
  | nil => intro st; left; rfl
  | cons col rest IH =>
    intro st
    rw [List.foldl_cons]
    rcases IH (fuzzyStep f st col) with h | h
    · rw [h]
      unfold fuzzyStep
      dsimp only
      by_cases hd : denyB (toLowerS col) = true
      · rw [if_pos hd]; left; rfl
      · rw [if_neg hd]
        by_cases hc : st.2 < fuzzyScore f col ∧ mkRat 1 2 ≤ fuzzyScore f col
        · rw [if_pos hc]; right; exact List.mem_cons_self col rest
        · rw [if_neg hc]; left; rfl
    · right; exact List.mem_cons_of_mem col h

lemma fuzzyScan_mem {f : BField} {cols : List String} {c : String}
    (h : fuzzyScan f cols = some c) : c ∈ cols := by
  unfold fuzzyScan at h
  dsimp only at h
  by_cases he : (cols.foldl (fuzzyStep f) ("", 0)).1 = ""
  · rw [if_pos he] at h; cases h
  · rw [if_neg he] at h
    cases h
    rcases fuzzyFold_mem f cols ("", 0) with h2 | h2
    · exact absurd h2 he
    · exact h2

lemma exactScan_eq_find (f : BField) :
    ∀ cols : List String,
      exactScan (toLowerS f.key) (toLowerS f.label) cols = cols.find? (exactishB f) := by
  intro cols
  induction cols with
  | nil => rfl
  | cons col rest IH =>
    rw [List.find?_cons]
    cases hx : exactishB f col with
    | true =>
      unfold exactishB at hx
      dsimp only at hx
      unfold exactScan
      dsimp only
      by_cases h1 : (toLowerS col = toLowerS f.key || toLowerS col = toLowerS f.label) = true
      · rw [if_pos h1]
      · rw [if_neg h1]
        rw [Bool.not_eq_true] at h1
        rw [h1, Bool.false_or] at hx
        rw [if_pos hx]
    | false =>
      unfold exactishB at hx
      dsimp only at hx
      rw [Bool.or_eq_false_iff] at hx
      unfold exactScan
      dsimp only
      rw [if_neg (by rw [hx.1]; exact Bool.false_ne_true),
        if_neg (by rw [hx.2]; exact Bool.false_ne_true), IH]

lemma exactScan_mem {f : BField} {cols : List String} {c : String}
    (h : exactScan (toLowerS f.key) (toLowerS f.label) cols = some c) : c ∈ cols := by
  rw [exactScan_eq_find] at h
  exact List.mem_of_find?_eq_some h

lemma findBestMatch_mem {f : BField} {cols : List String} {c : String}
    (h : findBestMatch f cols = some c) : c ∈ cols := by
  unfold findBestMatch at h
  cases he : exactScan (toLowerS f.key) (toLowerS f.label) cols with
  | some c2 => rw [he] at h; cases h; exact exactScan_mem he
  | none => rw [he] at h; exact fuzzyScan_mem h

lemma pick1_spec {cols : List String} {st : MapSt} {f : BField} {c : String}
    (h : pick1 cols st f = some c) :
    c ∈ cols ∧ c ∉ st.2 ∧ c ≠ "" ∧ exactPred f c = true := by
  unfold pick1 at h
  cases hf : cols.find? (fun col => exactPred f col) with
  | none => rw [hf] at h; cases h
  | some c2 =>
    rw [hf] at h
    dsimp only at h
    by_cases hc : c2 ≠ "" ∧ ¬ st.2.contains c2 = true
    · rw [if_pos hc] at h
      cases h
      refine ⟨List.mem_of_find?_eq_some hf, ?_, hc.1, List.find?_some hf⟩
      have := hc.2
      simpa using this
    · rw [if_neg hc] at h; cases h

lemma pick2_spec {cols : List String} {st : MapSt} {f : BField} {c : String}
    (h : pick2 cols st f = some c) :
    c ∈ cols ∧ c ∉ st.2 ∧ c ≠ "" ∧ cleanedPred f c = true := by
  unfold pick2 at h
  cases hf : cols.find? (fun col => ¬ st.2.contains col ∧ cleanedPred f col) with
  | none => rw [hf] at h; cases h
  | some c2 =>
    rw [hf] at h
    dsimp only at h
    by_cases hc : c2 ≠ ""
    · rw [if_pos hc] at h
      cases h
      have hp := List.find?_some hf
      simp only [decide_eq_true_eq] at hp
      refine ⟨List.mem_of_find?_eq_some hf, ?_, hc, hp.2⟩
      have := hp.1
      simpa using this
    · rw [if_neg hc] at h; cases h

lemma pick3_spec {cols : List String} {st : MapSt} {f : BField} {c : String}
    (h : pick3 cols st f = some c) :
    c ∈ cols ∧ c ∉ st.2 ∧ c ≠ "" := by
  unfold pick3 at h
  cases hf : findBestMatch f (cols.filter (fun col => ¬ st.2.contains col)) with
  | none => rw [hf] at h; cases h
  | some c2 =>
    rw [hf] at h
    dsimp only at h
    by_cases hc : c2 ≠ ""
    · rw [if_pos hc] at h
      cases h
      have hm := findBestMatch_mem hf
      have hmem := List.mem_filter.mp hm
      refine ⟨hmem.1, ?_, hc⟩
      have := hmem.2
      simp only [decide_eq_true_eq] at this
      simpa using this
    · rw [if_neg hc] at h; cases h

lemma mkRat_one_half : (mkRat 1 2 : ℚ) = 1/2 := by
  rw [Rat.mkRat_eq_divInt, Rat.divInt_eq_div]; norm_num

lemma emptyState_lookupInv (Q : String → String → Prop) :
    LookupInv Q (([], []) : MapSt) := by
  intro k v h
  cases h

lemma emptyState_injInv : InjInv (([], []) : MapSt) := by
  constructor
  · intro k v h; cases h
  · intro k1 k2 v h1 h2; cases h1

lemma autoMap_final_injInv (fields : List BField) (cols : List String) :
    InjInv ((pass3Fields fields cols).foldl (stepWith (pick3 cols))
      (autoMapPass12 fields cols)) := by
  refine foldl_stepWith_injInv _ _ (fun st2 g c _ hp => (pick3_spec hp).2.1) ?_
  refine foldl_stepWith_injInv _ _ (fun st2 g c _ hp => (pick2_spec hp).2.1) ?_
  exact foldl_stepWith_injInv _ _ (fun st2 g c _ hp => (pick1_spec hp).2.1)
    emptyState_injInv

/-- C1 : the mapping returned by `autoMapColumns` is injective: two
different field keys are never assigned the same column string. -/
theorem autoMap_injective (cols : List String) (k1 k2 c1 c2 : String)
    (h1 : lookupStr (autoMapColumns cols) k1 = some c1)
    (h2 : lookupStr (autoMapColumns cols) k2 = some c2)
    (hk : k1 ≠ k2) : c1 ≠ c2 := by
  intro hceq
  subst hceq
  exact hk ((autoMap_final_injInv BUSINESS_FIELDS cols).2 k1 k2 c1 h1 h2)

set_option maxRecDepth 10000 in
theorem autoMap_injective_witness :
    lookupStr (autoMapColumns ["Insurance", "EMPS"]) "insurance" = some "Insurance" ∧
    lookupStr (autoMapColumns ["Insurance", "EMPS"]) "emps" = some "EMPS" ∧
    "insurance" ≠ "emps" ∧ "Insurance" ≠ "EMPS" :=
  ⟨by decide, by decide, by decide,
    autoMap_injective ["Insurance", "EMPS"] "insurance" "emps" "Insurance" "EMPS"
      (by decide) (by decide) (by decide)⟩

/-- C3 : the fuzzy pass only assigns columns whose fuzzy score is at least
the threshold 0.5, and when no candidate reaches 0.5 (and the exact and
cleaned-exact checks found nothing) the field is left unmapped. -/
theorem fuzzy_threshold_respected (f : BField) (pool : List String) (c : String) :
    (fuzzyScan f pool = some c → (1/2 : ℚ) ≤ fuzzyScore f c) ∧
    (exactScan (toLowerS f.key) (toLowerS f.label) pool = none →
      (∀ d ∈ pool, denyB (toLowerS d) = false → fuzzyScore f d < (1/2 : ℚ)) →
      findBestMatch f pool = none) := by
  constructor
  · intro h
    have hg := (fuzzyScan_good h).1
    rwa [mkRat_one_half] at hg
  · intro hex hall
    unfold findBestMatch
    rw [hex]
    unfold fuzzyScan
    dsimp only
    rw [foldl_fuzzyStep_stuck f pool
      (fun d hd hdeny => by rw [mkRat_one_half]; exact hall d hd hdeny)]
    rfl

set_option maxRecDepth 10000 in
theorem fuzzy_threshold_respected_witness :
    (fuzzyScan ⟨"emps", "EMPS"⟩ ["EMPS Price"] = some "EMPS Price" ∧
      (1/2 : ℚ) ≤ fuzzyScore ⟨"emps", "EMPS"⟩ "EMPS Price") ∧
    (exactScan (toLowerS "emps") (toLowerS "EMPS") ["zzz"] = none ∧
      (∀ d ∈ ["zzz"], denyB (toLowerS d) = false →
        fuzzyScore ⟨"emps", "EMPS"⟩ d < (1/2 : ℚ)) ∧
      findBestMatch ⟨"emps", "EMPS"⟩ ["zzz"] = none) := by
  have hall : ∀ d ∈ ["zzz"], denyB (toLowerS d) = false →
      fuzzyScore ⟨"emps", "EMPS"⟩ d < (1/2 : ℚ) := by
    simp only [← mkRat_one_half]
    decide
  refine ⟨⟨by decide, ?_⟩, ⟨by decide, hall, ?_⟩⟩
  · exact (fuzzy_threshold_respected ⟨"emps", "EMPS"⟩ ["EMPS Price"] "EMPS Price").1
      (by decide)
  · exact (fuzzy_threshold_respected ⟨"emps", "EMPS"⟩ ["zzz"] "").2 (by decide) hall

/-- C4 : a denylisted column (lower-cased header containing one of product,
name, model, code, category, region, status) is never chosen by the fuzzy
pass, for any field. -/
theorem fuzzy_denylist_excluded (f : BField) (pool : List String) (c : String)
    (h : fuzzyScan f pool = some c) : denyB (toLowerS c) = false :=
  (fuzzyScan_good h).2

set_option maxRecDepth 10000 in
theorem fuzzy_denylist_excluded_witness :
    fuzzyScan ⟨"emps", "EMPS"⟩ ["EMPS Price"] = some "EMPS Price" ∧
    denyB (toLowerS "EMPS Price") = false :=
  ⟨by decide,
    fuzzy_denylist_excluded ⟨"emps", "EMPS"⟩ ["EMPS Price"] "EMPS Price" (by decide)⟩

/-- C6 (counterexample) : the exact check does not run as a separate staged
pass over all candidates: for the catalog field `emps`, with the pool
`["e.m.p.s", "EMPS"]`, the candidate `"EMPS"` is an exact (case-insensitive)
match for the key, the earlier candidate `"e.m.p.s"` is not, and yet
`findBestMatch` returns `"e.m.p.s"` (its cleaned-exact check fires during
the same single pass, before `"EMPS"` is ever examined). -/
theorem exact_pass_not_staged_counterexample :
    (⟨"emps", "EMPS"⟩ : BField) ∈ BUSINESS_FIELDS ∧
    "EMPS" ∈ (["e.m.p.s", "EMPS"] : List String) ∧
    toLowerS "EMPS" = toLowerS "emps" ∧
    ((toLowerS "e.m.p.s" = toLowerS "emps" ∨ toLowerS "e.m.p.s" = toLowerS "EMPS") →
      False) ∧
    findBestMatch ⟨"emps", "EMPS"⟩ ["e.m.p.s", "EMPS"] = some "e.m.p.s" := by
  decide

/-- C6 (amended) : exact and cleaned-exact checks are interleaved in one
pass: when some candidate passes either check, `findBestMatch` returns the
first candidate in pool order passing either check. -/
theorem findBestMatch_first_exactish (f : BField) (pool : List String)
    (h : ∃ c ∈ pool, exactishB f c = true) :
    findBestMatch f pool = pool.find? (exactishB f) := by
  unfold findBestMatch
  rw [exactScan_eq_find]
  obtain ⟨c0, hc0⟩ :=
    Option.isSome_iff_exists.mp (by rw [List.find?_isSome]; exact h)
  rw [hc0]

theorem findBestMatch_first_exactish_witness :
    (∃ c ∈ (["e.m.p.s", "EMPS"] : List String),
      exactishB ⟨"emps", "EMPS"⟩ c = true) ∧
    findBestMatch ⟨"emps", "EMPS"⟩ ["e.m.p.s", "EMPS"] =
      (["e.m.p.s", "EMPS"] : List String).find? (exactishB ⟨"emps", "EMPS"⟩) :=
  ⟨by decide,
    findBestMatch_first_exactish ⟨"emps", "EMPS"⟩ ["e.m.p.s", "EMPS"] (by decide)⟩

/-- C9 : the fuzzy pass processes the still-unmapped fields in descending
order of `label.split(' ')` token count; those fields are exactly the
fields left unmapped by passes 1 and 2; and the order is the stable one of
the JavaScript sort — within each token count the fields keep their
original (catalog) order, which together with sortedness determines the
processing order uniquely from the input field labels. -/
theorem pass3_specificity_order (cols : List String) :
    ((pass3Fields BUSINESS_FIELDS cols).Pairwise
      (fun a b => tokenCount b.label ≤ tokenCount a.label)) ∧
    (pass3Fields BUSINESS_FIELDS cols).Perm
      (BUSINESS_FIELDS.filter
        (fun f => falsyAt (autoMapPass12 BUSINESS_FIELDS cols).1 f.key)) ∧
    (∀ k : Nat,
      (pass3Fields BUSINESS_FIELDS cols).filter (fun f => tokenCount f.label = k) =
        (BUSINESS_FIELDS.filter
          (fun f => falsyAt (autoMapPass12 BUSINESS_FIELDS cols).1 f.key)).filter
            (fun f => tokenCount f.label = k)) := by
  refine ⟨sortByTokDesc_sorted _, sortByTokDesc_perm _, fun k => sortByTokDesc_filter k _⟩

/-- C10 : every key of the returned mapping is a catalog field key, every
assigned value is one of the input columns, and the empty column list yields
the empty mapping. -/
theorem autoMap_wellformed :
    (∀ (cols : List String) (k c : String),
      lookupStr (autoMapColumns cols) k = some c →
      (∃ f ∈ BUSINESS_FIELDS, f.key = k) ∧ c ∈ cols) ∧
    autoMapColumns [] = [] := by
  constructor
  · intro cols k c h
    have hQ : LookupInv
        (fun k2 v2 => (∃ f ∈ BUSINESS_FIELDS, f.key = k2) ∧ v2 ∈ cols)
        ((pass3Fields BUSINESS_FIELDS cols).foldl (stepWith (pick3 cols))
          (autoMapPass12 BUSINESS_FIELDS cols)) := by
      refine foldl_stepWith_lookupInv _ _
        (fun st2 g c2 hg hp =>
          ⟨⟨g, List.mem_of_mem_filter ((sortByTokDesc_perm _).mem_iff.mp hg), rfl⟩,
            (pick3_spec hp).1⟩) ?_
      refine foldl_stepWith_lookupInv _ _
        (fun st2 g c2 hg hp =>
          ⟨⟨g, List.mem_of_mem_filter hg, rfl⟩, (pick2_spec hp).1⟩) ?_
      exact foldl_stepWith_lookupInv _ _
        (fun st2 g c2 hg hp => ⟨⟨g, hg, rfl⟩, (pick1_spec hp).1⟩)
        (emptyState_lookupInv _)
    exact hQ k c h
  · decide

set_option maxRecDepth 10000 in
theorem autoMap_wellformed_witness :
    lookupStr (autoMapColumns ["Insurance"]) "insurance" = some "Insurance" ∧
    ((∃ f ∈ BUSINESS_FIELDS, f.key = "insurance") ∧
      "Insurance" ∈ (["Insurance"] : List String)) :=
  ⟨by decide, autoMap_wellformed.1 ["Insurance"] "insurance" "Insurance" (by decide)⟩

lemma indexOf_le_of_getElem {l : List String} :
    ∀ {i : Nat}, i < l.length → ∀ {v : String}, l[i]? = some v → l.indexOf v ≤ i := by
  induction l with
  | nil =>
    intro i hi
    exact absurd hi (by simp)
  | cons a t IH =>
    intro i hi v hv
    rw [List.indexOf_cons]
    cases i with
    | zero =>
      simp only [List.getElem?_cons_zero, Option.some_inj] at hv
      subst hv
      simp
    | succ n =>
      by_cases hab : (a == v) = true
      · simp [hab]
      · rw [List.getElem?_cons_succ] at hv
        have := IH (by simpa using hi) hv
        simp only [hab, cond_false]
        omega

lemma dupEntries_eq_nil_iff (l : List String) : dupEntries l = [] ↔ l.Nodup := by
  unfold dupEntries
  rw [List.map_eq_nil_iff, List.filter_eq_nil_iff]
  constructor
  · intro h
    refine List.pairwise_iff_getElem.mpr ?_
    intro i j hi hj hij
    intro he
    have hji : l.indexOf (l[j]) ≤ i :=
      indexOf_le_of_getElem hi (by rw [List.getElem?_eq_getElem hi, he])
    have hmem : ((j, l[j]) ∈ l.enum) :=
      List.mk_mem_enum_iff_getElem?.mpr (List.getElem?_eq_getElem hj)
    have hj2 := h _ hmem
    simp only [decide_eq_true_eq, Decidable.not_not] at hj2
    omega
  · intro hnd p hp
    obtain ⟨i, v⟩ := p
    have hp2 : l[i]? = some v := List.mk_mem_enum_iff_getElem?.mp hp
    have hlt : i < l.length := (List.getElem?_eq_some_iff.mp hp2).1
    have hgp : l[i] = v := (List.getElem?_eq_some_iff.mp hp2).2
    have hmem : v ∈ l := by
      rw [← hgp]
      exact List.getElem_mem hlt
    have hio : l.indexOf v < l.length := List.indexOf_lt_length.mpr hmem
    have hgi : l[l.indexOf v] = v := List.getElem_indexOf hio
    have heq : l.indexOf v = i := hnd.getElem_inj_iff.mp (hgi.trans hgp.symm)
    simp [heq]

lemma validate_errors_flatMap (m : Mapping) (cols : List String) :
    ∀ (L : List BField) (es : List String),
      (L.foldl (fun es f =>
        match lookupStr m f.key with
        | none => es ++ ["Missing mapping for: " ++ f.label]
        | some c =>
          if c = "" then es ++ ["Missing mapping for: " ++ f.label]
          else if ¬ cols.contains c then
            es ++ ["Invalid column selected for " ++ f.label ++ ": \"" ++ c ++
                   "\" not found in Excel file"]
          else es) es) = es ++ L.flatMap (fieldErrors m cols) := by
  intro L
  induction L with
  | nil => intro es; simp
  | cons f L2 IH =>
    intro es
    rw [List.foldl_cons, List.flatMap_cons]
    have hstep : (match lookupStr m f.key with
        | none => es ++ ["Missing mapping for: " ++ f.label]
        | some c =>
          if c = "" then es ++ ["Missing mapping for: " ++ f.label]
          else if ¬ cols.contains c then
            es ++ ["Invalid column selected for " ++ f.label ++ ": \"" ++ c ++
                   "\" not found in Excel file"]
          else es) = es ++ fieldErrors m cols f := by
      unfold fieldErrors
      cases hl : lookupStr m f.key with
      | none => rfl
      | some c =>
        by_cases hce : c = ""
        · simp [hce]
        · by_cases hcc : cols.contains c = true
          · have hmem : c ∈ cols := by simpa using hcc
            simp [hce, hmem]
          · have hmem : c ∉ cols := by simpa using hcc
            simp [hce, hmem]
    rw [hstep, IH, List.append_assoc]

lemma fieldErrors_length (m : Mapping) (cols : List String) (f : BField) :
    (fieldErrors m cols f).length =
      (if falsyAt m f.key then 1 else 0) + (if invalidB m cols f then 1 else 0) := by
  unfold fieldErrors invalidB falsyAt
  cases hl : lookupStr m f.key with
  | none => rfl
  | some c =>
    by_cases hce : c = ""
    · simp [hce]
    · by_cases hcc : cols.contains c = true
      · have hmem : c ∈ cols := by simpa using hcc
        simp [hce, hcc, hmem]
      · have hmem : c ∉ cols := by simpa using hcc
        simp [hce, hcc, hmem]

lemma flatMap_fieldErrors_length (m : Mapping) (cols : List String) :
    ∀ L : List BField,
      (L.flatMap (fieldErrors m cols)).length =
        (L.filter (fun f => falsyAt m f.key)).length +
        (L.filter (fun f => invalidB m cols f)).length := by
  intro L
  induction L with
  | nil => simp
  | cons f L2 IH =>
    rw [List.flatMap_cons, List.filter_cons, List.filter_cons, List.length_append,
      fieldErrors_length, IH]
    by_cases h1 : falsyAt m f.key = true <;> by_cases h2 : invalidB m cols f = true <;>
      simp [h1, h2] <;> omega

/-- C7 : `validateColumnMappings` collects all failures in one pass: the
error list has exactly one entry per field whose mapping is falsy (missing)
plus one per field mapped to a column absent from the column list
(invalid); the warning list is non-empty exactly when some non-empty column
value is assigned more than once (duplicates are warnings, never errors);
and `isValid` holds exactly when the error list is empty, unaffected by
warnings. -/
theorem validateColumnMappings_spec (m : Mapping) (cols : List String)
    (hkeys : (m.map Prod.fst).Nodup) :
    ((validateColumnMappings m cols).errors.length =
      (BUSINESS_FIELDS.filter (fun f => falsyAt m f.key)).length +
      (BUSINESS_FIELDS.filter (fun f => invalidB m cols f)).length) ∧
    ((validateColumnMappings m cols).warnings ≠ [] ↔
      ¬ ((m.map Prod.snd).filter (fun v => v ≠ "")).Nodup) ∧
    ((validateColumnMappings m cols).isValid = true ↔
      (validateColumnMappings m cols).errors = []) := by
  unfold validateColumnMappings
  dsimp only
  refine ⟨?_, ?_, ?_⟩
  · rw [validate_errors_flatMap m cols BUSINESS_FIELDS []]
    rw [List.nil_append]
    exact flatMap_fieldErrors_length m cols BUSINESS_FIELDS
  · simp only [ne_eq, decide_not]
    by_cases hd :
        dupEntries (List.filter (fun v => !decide (v = "")) (List.map Prod.snd m)) = []
    · rw [if_neg (by simp [hd])]
      simp only [not_true_eq_false, false_iff, Decidable.not_not]
      exact (dupEntries_eq_nil_iff _).mp hd
    · rw [if_pos (by simpa using hd)]
      simp only [List.cons_ne_nil, not_false_eq_true, true_iff]
      intro hnd
      exact hd ((dupEntries_eq_nil_iff _).mpr hnd)
  · rw [List.isEmpty_iff]

set_option maxRecDepth 10000 in
theorem validateColumnMappings_spec_witness :
    (((([("insurance", "Ins"), ("emps", "")] : Mapping)).map Prod.fst).Nodup) ∧
    ((validateColumnMappings [("insurance", "Ins"), ("emps", "")] ["Ins"]).isValid = true ↔
      (validateColumnMappings [("insurance", "Ins"), ("emps", "")] ["Ins"]).errors = []) :=
  ⟨by decide,
    (validateColumnMappings_spec [("insurance", "Ins"), ("emps", "")] ["Ins"]
      (by decide)).2.2⟩

/-- C8 (counterexample) : on the single-field catalog `roadTax` with column
list `["Road Tax %"]`, the mapping is not reached via the fuzzy pass: pass 1
(perfect exact) leaves the field unmapped, pass 2 (cleaned exact) already
maps it, and the fuzzy pass then has no fields left to process. -/
theorem roadTax_scenario_counterexample :
    lookupStr (autoMapPass1
      [⟨"roadTax", "Road tax (% tax on Ex showroom excl. subsidy) [130]"⟩]
      ["Road Tax %"]).1 "roadTax" = none ∧
    lookupStr (autoMapPass12
      [⟨"roadTax", "Road tax (% tax on Ex showroom excl. subsidy) [130]"⟩]
      ["Road Tax %"]).1 "roadTax" = some "Road Tax %" ∧
    pass3Fields [⟨"roadTax", "Road tax (% tax on Ex showroom excl. subsidy) [130]"⟩]
      ["Road Tax %"] = [] := by
  decide

/-- C8 (amended) : the scenario's mapping itself holds — `roadTax` maps to
`"Road Tax %"` — but it is reached via the cleaned-exact pass (pass 2),
since both the column and the key normalise to `"roadtax"`. -/
theorem roadTax_scenario_cleaned_pass :
    lookupStr (autoMapColumnsWith
      [⟨"roadTax", "Road tax (% tax on Ex showroom excl. subsidy) [130]"⟩]
      ["Road Tax %"]) "roadTax" = some "Road Tax %" ∧
    stripNonAlnum (toLowerS "Road Tax %") = stripNonAlnum (toLowerS "roadTax") ∧
    stripNonAlnum (toLowerS "Road Tax %") = "roadtax" := by
  decide

lemma cleanedPred_iff (f : BField) (v : String) :
    cleanedPred f v = true ↔ CleanedMatch f v := by
  unfold cleanedPred CleanedMatch
  dsimp only
  rw [Bool.or_eq_true]
  simp

lemma exactPred_cleanedMatch {f : BField} {v : String} (h : exactPred f v = true) :
    CleanedMatch f v := by
  unfold exactPred at h
  dsimp only at h
  rw [Bool.or_eq_true] at h
  simp only [decide_eq_true_eq] at h
  unfold CleanedMatch
  rcases h with h | h
  · exact Or.inl (congrArg stripNonAlnum h)
  · exact Or.inr (congrArg stripNonAlnum h)

instance (f : BField) (c : String) : Decidable (CleanedMatch f c) :=
  decidable_of_iff _ (cleanedPred_iff f c)

lemma catalog_keys_nodup : (BUSINESS_FIELDS.map (fun f => f.key)).Nodup := by decide

lemma catalog_key_inj :
    ∀ f ∈ BUSINESS_FIELDS, ∀ g ∈ BUSINESS_FIELDS, f.key = g.key → f = g := by decide

set_option maxRecDepth 4000 in
lemma catalog_clean_disjoint :
    ∀ f ∈ BUSINESS_FIELDS, ∀ g ∈ BUSINESS_FIELDS,
      (stripNonAlnum (toLowerS f.key) = stripNonAlnum (toLowerS g.key) ∨
       stripNonAlnum (toLowerS f.key) = stripNonAlnum (toLowerS g.label) ∨
       stripNonAlnum (toLowerS f.label) = stripNonAlnum (toLowerS g.key) ∨
       stripNonAlnum (toLowerS f.label) = stripNonAlnum (toLowerS g.label)) →
      f = g := by decide

lemma catalog_clean_ne_empty :
    ∀ f ∈ BUSINESS_FIELDS,
      stripNonAlnum (toLowerS f.key) ≠ "" ∧ stripNonAlnum (toLowerS f.label) ≠ "" := by
  decide

lemma cleanedMatch_ne_empty {f : BField} {v : String} (hf : f ∈ BUSINESS_FIELDS)
    (h : CleanedMatch f v) : v ≠ "" := by
  rintro rfl
  have hempty : stripNonAlnum (toLowerS "") = "" := rfl
  rcases h with h | h
  · exact (catalog_clean_ne_empty f hf).1 (hempty ▸ h.symm)
  · exact (catalog_clean_ne_empty f hf).2 (hempty ▸ h.symm)

lemma cleanedMatch_disjoint {f g : BField} {v : String} (hf : f ∈ BUSINESS_FIELDS)
    (hg : g ∈ BUSINESS_FIELDS) (h1 : CleanedMatch f v) (h2 : CleanedMatch g v) : f = g := by
  apply catalog_clean_disjoint f hf g hg
  rcases h1 with h1 | h1 <;> rcases h2 with h2 | h2
  · exact Or.inl (h1.symm.trans h2)
  · exact Or.inr (Or.inl (h1.symm.trans h2))
  · exact Or.inr (Or.inr (Or.inl (h1.symm.trans h2)))
  · exact Or.inr (Or.inr (Or.inr (h1.symm.trans h2)))

lemma falsyAt_cons_ne {m : Mapping} {k1 k : String} (v : String) (h : k1 ≠ k) :
    falsyAt ((k1, v) :: m) k = falsyAt m k := by
  unfold falsyAt
  rw [lookupStr_cons_ne v h]

lemma not_falsy_of_lookup {m : Mapping} {k v : String} (hlk : lookupStr m k = some v)
    (hne : v ≠ "") : falsyAt m k = false := by
  unfold falsyAt
  rw [hlk]
  simpa using hne

lemma falsy_lookup {m : Mapping} {k : String} (h : falsyAt m k = true) :
    lookupStr m k = none ∨ lookupStr m k = some "" := by
  unfold falsyAt at h
  cases hl : lookupStr m k with
  | none => exact Or.inl rfl
  | some v =>
    rw [hl] at h
    simp only [decide_eq_true_eq] at h
    exact Or.inr (by rw [h])

lemma foldl_stepWith_own {pick : MapSt → BField → Option String}
    (hpick : ∀ st g c, pick st g = some c → c ≠ "" ∧ CleanedMatch g c) :
    ∀ (L : List BField) (st : MapSt),
      (∀ g ∈ L, g ∈ BUSINESS_FIELDS) →
      ((L.map (fun f => f.key)).Nodup) →
      (∀ g ∈ L, falsyAt st.1 g.key = true) →
      OwnInv st → OwnInv (L.foldl (stepWith pick) st) := by
  intro L
  induction L with
  | nil => intro st _ _ _ h; exact h
  | cons f L2 IH =>
    intro st hsub hnd hfalsy h
    rw [List.foldl_cons]
    have hnd2 : ((L2.map (fun f => f.key)).Nodup) := (List.nodup_cons.mp hnd).2
    have hkey_notin : f.key ∉ L2.map (fun f => f.key) := (List.nodup_cons.mp hnd).1
    cases hp : pick st f with
    | none =>
      rw [stepWith_none hp]
      exact IH st (fun g hg => hsub g (List.mem_cons_of_mem f hg)) hnd2
        (fun g hg => hfalsy g (List.mem_cons_of_mem f hg)) h
    | some c =>
      rw [stepWith_some hp]
      have hkeyne : ∀ g ∈ L2, g.key ≠ f.key := by
        intro g hg he
        exact hkey_notin (he ▸ List.mem_map_of_mem (fun f => f.key) hg)
      refine IH _ (fun g hg => hsub g (List.mem_cons_of_mem f hg)) hnd2 ?_ ?_
      · intro g hg
        rw [show (((f.key, c) :: st.1, c :: st.2) : MapSt).1 = (f.key, c) :: st.1 from rfl,
          falsyAt_cons_ne c (fun he => hkeyne g hg he.symm)]
        exact hfalsy g (List.mem_cons_of_mem f hg)
      · intro v hv
        rcases List.mem_cons.mp hv with rfl | hv
        · refine ⟨(hpick st f v hp).1, f, hsub f (List.mem_cons_self f L2),
            (hpick st f v hp).2, ?_⟩
          exact lookupStr_cons_self v
        · obtain ⟨hne, g, hgcat, hcm, hlk⟩ := h v hv
          refine ⟨hne, g, hgcat, hcm, ?_⟩
          by_cases hgk : g.key = f.key
          · exfalso
            rw [hgk] at hlk
            rcases falsy_lookup (hfalsy f (List.mem_cons_self f L2)) with h0 | h0 <;>
              rw [h0] at hlk
            · cases hlk
            · cases hlk
              exact hne rfl
          · rw [show (((f.key, c) :: st.1, c :: st.2) : MapSt).1 = (f.key, c) :: st.1 from rfl,
              lookupStr_cons_ne c (fun he => hgk he.symm)]
            exact hlk

lemma pick2_eq_of_find {cols : List String} {st : MapSt} {f : BField} {c0 : String}
    (h : cols.find? (fun col => ¬ st.2.contains col ∧ cleanedPred f col) = some c0)
    (hne : c0 ≠ "") : pick2 cols st f = some c0 := by
  unfold pick2
  rw [h]
  dsimp only
  rw [if_pos hne]

lemma pass1_lookupInv (cols : List String) :
    LookupInv (fun k v => ∃ g ∈ BUSINESS_FIELDS, g.key = k ∧ exactPred g v = true)
      (autoMapPass1 BUSINESS_FIELDS cols) :=
  foldl_stepWith_lookupInv _ _
    (fun st2 g c hg hp => ⟨g, hg, rfl, (pick1_spec hp).2.2.2⟩)
    (emptyState_lookupInv _)

lemma pass1_own (cols : List String) : OwnInv (autoMapPass1 BUSINESS_FIELDS cols) := by
  refine foldl_stepWith_own
    (fun st g c hp =>
      ⟨(pick1_spec hp).2.2.1, exactPred_cleanedMatch (pick1_spec hp).2.2.2⟩)
    BUSINESS_FIELDS ([], []) (fun g hg => hg) catalog_keys_nodup (fun g hg => rfl) ?_
  intro v hv
  cases hv

/-- C2 (amended) : whenever some column's normalised text equals a catalog
field's normalised key or label, the engine maps that field — in pass 1 or
pass 2, before any fuzzy scoring — to a column whose normalised text equals
the field's normalised key or label (the first available such column; when
exactly one column matches, that column). -/
theorem autoMap_cleaned_match_mapped (cols : List String) (f : BField) (c : String)
    (hf : f ∈ BUSINESS_FIELDS) (hc : c ∈ cols) (hm : CleanedMatch f c) :
    ∃ c2, lookupStr (autoMapColumns cols) f.key = some c2 ∧ CleanedMatch f c2 := by
  have hpick2own : ∀ (st : MapSt) (g : BField) (c2 : String),
      pick2 cols st g = some c2 → c2 ≠ "" ∧ CleanedMatch g c2 :=
    fun st g c2 hp =>
      ⟨(pick2_spec hp).2.2.1, (cleanedPred_iff g c2).mp (pick2_spec hp).2.2.2⟩
  have hmain : ∃ c2, lookupStr (autoMapPass12 BUSINESS_FIELDS cols).1 f.key = some c2 ∧
      CleanedMatch f c2 ∧ c2 ≠ "" := by
    by_cases hfalsy1 : falsyAt (autoMapPass1 BUSINESS_FIELDS cols).1 f.key = true
    · -- f unmapped after pass 1; pass 2 maps it to a cleaned match.
      have hfrem : f ∈ BUSINESS_FIELDS.filter
          (fun h => falsyAt (autoMapPass1 BUSINESS_FIELDS cols).1 h.key) :=
        List.mem_filter.mpr ⟨hf, by simp [hfalsy1]⟩
      obtain ⟨pre, post, hsplit⟩ := List.append_of_mem hfrem
      have hremnd : ((BUSINESS_FIELDS.filter
          (fun h => falsyAt (autoMapPass1 BUSINESS_FIELDS cols).1 h.key)).map
            (fun h => h.key)).Nodup :=
        catalog_keys_nodup.sublist ((List.filter_sublist _).map _)
      have hmapsplit : (BUSINESS_FIELDS.filter
          (fun h => falsyAt (autoMapPass1 BUSINESS_FIELDS cols).1 h.key)).map
            (fun h => h.key) =
          pre.map (fun h => h.key) ++ f.key :: post.map (fun h => h.key) := by
        rw [hsplit, List.map_append, List.map_cons]
      rw [hmapsplit] at hremnd
      have hprend : (pre.map (fun h => h.key)).Nodup := hremnd.of_append_left
      have hkeynotpre : f.key ∉ pre.map (fun h => h.key) := by
        rw [List.nodup_append] at hremnd
        intro hmem
        exact hremnd.2.2 hmem (List.mem_cons_self f.key (post.map (fun h => h.key)))
      have hkeynotpost : f.key ∉ post.map (fun h => h.key) := by
        rw [List.nodup_append] at hremnd
        exact (List.nodup_cons.mp hremnd.2.1).1
      have hprene : ∀ g ∈ pre, g.key ≠ f.key := by
        intro g hg he
        exact hkeynotpre (he ▸ List.mem_map_of_mem (fun h => h.key) hg)
      have hpostne : ∀ g ∈ post, g.key ≠ f.key := by
        intro g hg he
        exact hkeynotpost (he ▸ List.mem_map_of_mem (fun h => h.key) hg)
      have hpremem : ∀ g ∈ pre, g ∈ BUSINESS_FIELDS.filter
          (fun h => falsyAt (autoMapPass1 BUSINESS_FIELDS cols).1 h.key) := by
        intro g hg
        rw [hsplit]
        exact List.mem_append_left _ hg
      -- the state reached just before f's turn in pass 2
      have hownA : OwnInv (pre.foldl (stepWith (pick2 cols))
          (autoMapPass1 BUSINESS_FIELDS cols)) := by
        refine foldl_stepWith_own hpick2own pre _ ?_ hprend ?_ (pass1_own cols)
        · intro g hg
          exact (List.mem_filter.mp (hpremem g hg)).1
        · intro g hg
          simpa using (List.mem_filter.mp (hpremem g hg)).2
      have hfalsyA : falsyAt (pre.foldl (stepWith (pick2 cols))
          (autoMapPass1 BUSINESS_FIELDS cols)).1 f.key = true := by
        rw [foldl_stepWith_falsy (pick2 cols) pre _ hprene]
        exact hfalsy1
      have hnotinA : c ∉ (pre.foldl (stepWith (pick2 cols))
          (autoMapPass1 BUSINESS_FIELDS cols)).2 := by
        intro hcin
        obtain ⟨hcne, g, hgcat, hcmg, hlkg⟩ := hownA c hcin
        have hgf : f = g := cleanedMatch_disjoint hf hgcat hm hcmg
        rw [← hgf] at hlkg
        rw [not_falsy_of_lookup hlkg hcne] at hfalsyA
        cases hfalsyA
      have hsome : (cols.find? (fun col =>
          ¬ (pre.foldl (stepWith (pick2 cols))
            (autoMapPass1 BUSINESS_FIELDS cols)).2.contains col ∧
          cleanedPred f col)).isSome := by
        rw [List.find?_isSome]
        refine ⟨c, hc, ?_⟩
        simp only [Bool.and_eq_true, decide_eq_true_eq]
        exact ⟨by simpa using hnotinA, (cleanedPred_iff f c).mpr hm⟩
      obtain ⟨c0, hc0⟩ := Option.isSome_iff_exists.mp hsome
      have hpred0 := List.find?_some hc0
      simp only [Bool.and_eq_true, decide_eq_true_eq] at hpred0
      have hcm0 : CleanedMatch f c0 := (cleanedPred_iff f c0).mp hpred0.2
      have hc0ne : c0 ≠ "" := cleanedMatch_ne_empty hf hcm0
      have hpickf : pick2 cols (pre.foldl (stepWith (pick2 cols))
          (autoMapPass1 BUSINESS_FIELDS cols)) f = some c0 :=
        pick2_eq_of_find hc0 hc0ne
      refine ⟨c0, ?_, hcm0, hc0ne⟩
      show lookupStr ((BUSINESS_FIELDS.filter
          (fun h => falsyAt (autoMapPass1 BUSINESS_FIELDS cols).1 h.key)).foldl
            (stepWith (pick2 cols)) (autoMapPass1 BUSINESS_FIELDS cols)).1 f.key = some c0
      rw [hsplit, List.foldl_append, List.foldl_cons,
        foldl_stepWith_lookup_ne (pick2 cols) post _ hpostne, stepWith_some hpickf]
      exact lookupStr_cons_self c0
    · -- f was mapped in pass 1, necessarily by an exact match.
      rw [Bool.not_eq_true] at hfalsy1
      have hl : ∃ v, lookupStr (autoMapPass1 BUSINESS_FIELDS cols).1 f.key = some v ∧
          v ≠ "" := by
        unfold falsyAt at hfalsy1
        cases hlk : lookupStr (autoMapPass1 BUSINESS_FIELDS cols).1 f.key with
        | none => rw [hlk] at hfalsy1; cases hfalsy1
        | some v =>
          rw [hlk] at hfalsy1
          simp only [decide_eq_false_iff_not] at hfalsy1
          exact ⟨v, rfl, hfalsy1⟩
      obtain ⟨v, hlk, hvne⟩ := hl
      obtain ⟨g, hgcat, hgk, hgex⟩ := pass1_lookupInv cols f.key v hlk
      have hgf : g = f := catalog_key_inj g hgcat f hf hgk
      have hcm2 : CleanedMatch f v := hgf ▸ exactPred_cleanedMatch hgex
      have hkeysne : ∀ g2 ∈ BUSINESS_FIELDS.filter
          (fun h => falsyAt (autoMapPass1 BUSINESS_FIELDS cols).1 h.key),
          g2.key ≠ f.key := by
        intro g2 hg2 he
        have h2 : falsyAt (autoMapPass1 BUSINESS_FIELDS cols).1 g2.key = true := by
          simpa using (List.mem_filter.mp hg2).2
        rw [he, hfalsy1] at h2
        cases h2
      refine ⟨v, ?_, hcm2, hvne⟩
      show lookupStr ((BUSINESS_FIELDS.filter
          (fun h => falsyAt (autoMapPass1 BUSINESS_FIELDS cols).1 h.key)).foldl
            (stepWith (pick2 cols)) (autoMapPass1 BUSINESS_FIELDS cols)).1 f.key = some v
      rw [foldl_stepWith_lookup_ne (pick2 cols) _ _ hkeysne]
      exact hlk
  obtain ⟨c2, hlk2, hcm2, hc2ne⟩ := hmain
  have hp3ne : ∀ g ∈ pass3Fields BUSINESS_FIELDS cols, g.key ≠ f.key := by
    intro g hg he
    have hgmem := List.mem_filter.mp ((sortByTokDesc_perm _).mem_iff.mp hg)
    have hfalsy2 : falsyAt (autoMapPass12 BUSINESS_FIELDS cols).1 g.key = true := by
      simpa using hgmem.2
    rw [he, not_falsy_of_lookup hlk2 hc2ne] at hfalsy2
    cases hfalsy2
  refine ⟨c2, ?_, hcm2⟩
  show lookupStr ((pass3Fields BUSINESS_FIELDS cols).foldl (stepWith (pick3 cols))
    (autoMapPass12 BUSINESS_FIELDS cols)).1 f.key = some c2
  rw [foldl_stepWith_lookup_ne (pick3 cols) _ _ hp3ne]
  exact hlk2

theorem autoMap_cleaned_match_mapped_witness :
    ((⟨"insurance", "Insurance"⟩ : BField) ∈ BUSINESS_FIELDS ∧
      "Insurance" ∈ (["Insurance"] : List String) ∧
      CleanedMatch ⟨"insurance", "Insurance"⟩ "Insurance") ∧
    (∃ c2, lookupStr (autoMapColumns ["Insurance"]) "insurance" = some c2 ∧
      CleanedMatch ⟨"insurance", "Insurance"⟩ c2) :=
  ⟨⟨by decide, by decide, by decide⟩,
    autoMap_cleaned_match_mapped ["Insurance"] ⟨"insurance", "Insurance"⟩ "Insurance"
      (by decide) (by decide) (by decide)⟩

set_option maxRecDepth 100000 in
/-- C2 (counterexample) : with catalog field `emps` and columns
`["EMPS", "E.M.P.S"]`, the column `"E.M.P.S"` normalises to `"emps"`, the
field's normalised key, yet the engine maps `emps` to `"EMPS"` — so a field
need not map to a given normalised-matching column when several columns
match. -/
theorem exact_match_precedence_counterexample :
    (⟨"emps", "EMPS"⟩ : BField) ∈ BUSINESS_FIELDS ∧
    "E.M.P.S" ∈ (["EMPS", "E.M.P.S"] : List String) ∧
    stripNonAlnum (toLowerS "E.M.P.S") = stripNonAlnum (toLowerS "emps") ∧
    lookupStr (autoMapColumns ["EMPS", "E.M.P.S"]) "emps" = some "EMPS" ∧
    ¬ lookupStr (autoMapColumns ["EMPS", "E.M.P.S"]) "emps" = some "E.M.P.S" := by
  decide
end PriceUpdate
